import Mathlib

/-!
Verification of the hivemind state engine (crates hivemind-types and
hivemind-state) against its natural-language specification.

The Rust sources are shallowly embedded:
  * machine integers (u32, u64) become Nat; the places where overflow or
    indexing could panic in Rust are modelled explicitly,
  * rust_decimal::Decimal becomes Rat; the transcendental Decimal
    operations exp and ln are parameters of the embedding (a DecimalOps
    record), since every claim under study is independent of their values,
  * the heed store tables become a State record: tables that are only
    read and written pointwise become functions (OutPoint to Option),
    the markets table, which connect_body iterates, becomes an
    association list,
  * fallible Rust code returning Result becomes Except Error; a Rust
    panic (the explicit panic! in connect_body, the unreachable! arms,
    and out-of-bounds vector indexing) becomes the Error.panicked value.
    Since a panic inside a heed write transaction aborts the transaction,
    returning an error without the partial state is the observable
    behaviour.
-/

set_option maxHeartbeats 1000000

set_option allowUnsafeReducibility true
attribute [semireducible] Rat.add Rat.sub Rat.mul Rat.inv

/-- Equality of Except values with decidable component types is
decidable (needed to evaluate the embedding on concrete inputs). -/
instance {e a : Type} [DecidableEq e] [DecidableEq a] : DecidableEq (Except e a) := fun x y =>
  match x, y with
  | .ok x1, .ok y1 =>
      if h : x1 = y1 then .isTrue (by rw [h]) else .isFalse (fun hh => h (Except.ok.inj hh))
  | .error x1, .error y1 =>
      if h : x1 = y1 then .isTrue (by rw [h]) else .isFalse (fun hh => h (Except.error.inj hh))
  | .ok _, .error _ => .isFalse (fun hh => Except.noConfusion hh)
  | .error _, .ok _ => .isFalse (fun hh => Except.noConfusion hh)

/-- sdk_types OutPoint: a reference to a transaction output.  The
coinbase variant is treated opaquely by the spec; txids and merkle roots
are opaque hashes, modelled as Nat. -/
inductive OutPoint where
  | regular (txid : Nat) (vout : Nat)
  | coinbase (merkleRoot : Nat) (vout : Nat)
deriving DecidableEq

/-- The content of an output: the sdk Value variant together with the
custom HivemindContent variants (types/src/lib.rs). -/
inductive Content where
  | value (v : Nat)
  | resolution (decision : OutPoint) (outcome : Nat)
  | decision (query : Nat) (size : Nat) (resolvable_height : Nat)
  | market (b : Nat) (decisions : List OutPoint)
  | position (market : OutPoint) (share : List Nat) (value : Nat)
deriving DecidableEq

/-- An output: opaque address plus content. -/
structure Output where
  address : Nat
  content : Content
deriving DecidableEq

/-- get_value: the Value variant carries its face value, every
HivemindContent variant has value 0. -/
def get_value (o : Output) : Nat :=
  match o.content with
  | .value v => v
  | _ => 0

structure Transaction where
  inputs : List OutPoint
  outputs : List Output
deriving DecidableEq

/-- FilledTransaction (types/src/lib.rs): the transaction together with
the outputs its inputs resolved to. -/
structure FilledTransaction where
  spent_utxos : List Output
  transaction : Transaction
deriving DecidableEq

/-- Body: coinbase outputs and transactions (authorizations are outside
the state engine). -/
structure Body where
  coinbase : List Output
  transactions : List Transaction
deriving DecidableEq

/-- The Error enum of hivemind-state (state/src/lib.rs).  The variants
coming from the sdk, heed and the signature library do not arise in the
embedded code.  panicked stands for a Rust panic: the explicit panic! in
the connect_body input loop, the unreachable! arms, and out-of-bounds
vector indexing. -/
inductive Error where
  | noUtxo (outpoint : OutPoint)
  | invalidOutPoint (outpoint : OutPoint)
  | u64Overflow (decimal : Rat)
  | notEnoughValueIn
  | notEnoughFeeValue
  | utxoDoubleSpent (outpoint : OutPoint)
  | decisionSpentEarly
  | decisionSpentWithoutResolution
  | marketUsingResolvableDecision
  | panicked
deriving DecidableEq

/-- The persisted Market record (types/src/lib.rs). -/
structure Market where
  b : Nat
  shape : List Nat
  decisions : List OutPoint
  outcomes : List (Option Nat)
deriving DecidableEq

/-- The deterministic Decimal transcendental functions used by the
pricing code.  rust_decimal exp and ln are fixed concrete functions; the
claims under study hold for every choice, so the embedding is
parameterized by them. -/
structure DecimalOps where
  exp : Rat → Rat
  ln : Rat → Rat

/-- A trivial instantiation of the Decimal transcendentals, used to
evaluate the embedding on concrete inputs. -/
def trivOps : DecimalOps := ⟨fun _ => 0, fun _ => 0⟩

/-- dec!(21_000_000_00_000_000) from lmsr_cost. -/
def max_money : Rat := 2100000000000000

/-- lmsr_cost (types/src/lib.rs): b and the state vector are rescaled by
max_money to keep exp in range. -/
def lmsr_cost (ops : DecimalOps) (b : Rat) (state : List Rat) : Rat :=
  ops.ln ((state.map (fun q => ops.exp (q / (b * max_money)))).sum) * b * max_money

/-- rust_decimal to_u64: None for a negative Decimal or one whose
truncation exceeds u64::MAX, otherwise the truncated value. -/
def to_u64 (q : Rat) : Option Nat :=
  if q < 0 ∨ (2 ^ 64 : Int) ≤ q.floor then none else some q.floor.toNat

/-- Pointwise map update (a heed put on a table modelled as a function). -/
def fput {K V : Type} [DecidableEq K] (m : K → Option V) (k : K) (v : V) : K → Option V :=
  fun k2 => if k2 = k then some v else m k2

/-- Pointwise map deletion (a heed delete on a table modelled as a function). -/
def fdel {K V : Type} [DecidableEq K] (m : K → Option V) (k : K) : K → Option V :=
  fun k2 => if k2 = k then none else m k2

/-- Association list lookup (used for the iterated markets table and for
the in-memory delta maps). -/
def alGet {K V : Type} [DecidableEq K] : List (K × V) → K → Option V
  | [], _ => none
  | (k2, v) :: rest, k => if k2 = k then some v else alGet rest k

/-- Association list put: replace in place when the key is present,
append otherwise. -/
def alPut {K V : Type} [DecidableEq K] : List (K × V) → K → V → List (K × V)
  | [], k, v => [(k, v)]
  | (k2, v2) :: rest, k, v =>
      if k2 = k then (k, v) :: rest else (k2, v2) :: alPut rest k v

/-- The four heed tables of hivemind-state State.  utxos, vectors and
market_to_positions are only accessed pointwise; the markets table is
iterated by connect_body and is kept as an association list. -/
structure State where
  utxos : OutPoint → Option Output
  vectors : OutPoint → Option (List Rat)
  markets : List (OutPoint × Market)
  market_to_positions : OutPoint → Option (List OutPoint)

/-- A state with all four tables empty. -/
def emptyState : State :=
  ⟨(fun _ => none), (fun _ => none), [], (fun _ => none)⟩

/-- The mixed-radix loop body of share_to_flat_index: step starts at the
product of the shape, then for each coordinate step /= dim and
idx += s * step. -/
def flat_index_core : Nat → List Nat → List Nat → Nat
  | step, s :: share, dim :: shape =>
      s * (step / dim) + flat_index_core (step / dim) share shape
  | _, _, _ => 0

/-- The pure part of share_to_flat_index, applied to the shape stored in
the market record. -/
def flat_index (shape share : List Nat) : Nat :=
  flat_index_core shape.prod share shape

/-- share_to_flat_index (state/src/lib.rs): looks the market up in the
markets table and computes the row-major flat index. -/
def share_to_flat_index (st : State) (market : OutPoint) (share : List Nat) :
    Except Error Nat :=
  match alGet st.markets market with
  | none => .error (.noUtxo market)
  | some m => .ok (flat_index m.shape share)

/-- get_size: the product of the stored shape. -/
def get_size (st : State) (market : OutPoint) : Except Error Nat :=
  match alGet st.markets market with
  | none => .error (.noUtxo market)
  | some m => .ok m.shape.prod

/-- fill_transaction: resolve every input outpoint in utxos. -/
def fill_transaction (st : State) (t : Transaction) : Except Error FilledTransaction := do
  let spent ← t.inputs.foldlM
    (fun acc i =>
      match st.utxos i with
      | none => .error (.noUtxo i)
      | some u => .ok (acc ++ [u]))
    []
  .ok ⟨spent, t⟩

/-- One step of the market_to_delta update in get_deltas_and_values:
entry(market).or_insert(zero vector of the given size), then
delta[flat] += v.  Indexing outside the vector panics in Rust. -/
def delta_update (mtd : List (OutPoint × List Rat)) (market : OutPoint)
    (size flat : Nat) (v : Rat) : Except Error (List (OutPoint × List Rat)) :=
  let delta := (alGet mtd market).getD (List.replicate size 0)
  if h : flat < delta.length then
    .ok (alPut mtd market (delta.set flat (delta.get ⟨flat, h⟩ + v)))
  else .error .panicked

/-- The spent_utxos loop body of get_deltas_and_values: accumulate
input_value and subtract Position values from the market delta. -/
def input_step (st : State) (acc : List (OutPoint × List Rat) × Nat) (u : Output) :
    Except Error (List (OutPoint × List Rat) × Nat) :=
  let iv := acc.2 + get_value u
  match u.content with
  | .position market share value => do
      let size ← get_size st market
      let flat ← share_to_flat_index st market share
      let mtd ← delta_update acc.1 market size flat (-(value : Rat))
      .ok (mtd, iv)
  | _ => .ok (acc.1, iv)

/-- get_market_funding_cost: a new Market output is charged
b * ln(size), converted to u64; any other output costs 0. -/
def get_market_funding_cost (ops : DecimalOps) (st : State) (output : Output) :
    Except Error Nat :=
  match output.content with
  | .market b decisions => do
      let size ← decisions.foldlM
        (fun acc d =>
          match st.utxos d with
          | none => .error (.noUtxo d)
          | some out =>
            match out.content with
            | .decision _ sz _ => .ok (acc * sz)
            | _ => .error (.invalidOutPoint d))
        1
      let cost := (b : Rat) * ops.ln (size : Rat)
      match to_u64 cost with
      | none => .error (.u64Overflow cost)
      | some c => .ok c
  | _ => .ok 0

/-- The outputs loop body of get_deltas_and_values: accumulate
output_value (face value plus market funding cost) and add Position
values to the market delta. -/
def output_step (ops : DecimalOps) (st : State)
    (acc : List (OutPoint × List Rat) × Nat) (output : Output) :
    Except Error (List (OutPoint × List Rat) × Nat) := do
  let fc ← get_market_funding_cost ops st output
  let ov := acc.2 + get_value output + fc
  match output.content with
  | .position market share value => do
      let size ← get_size st market
      let flat ← share_to_flat_index st market share
      let mtd ← delta_update acc.1 market size flat (value : Rat)
      .ok (mtd, ov)
  | _ => .ok (acc.1, ov)

/-- get_deltas_and_values: walk the spent utxos, then the outputs,
producing the per-market deltas, the summed input value and the summed
output value. -/
def get_deltas_and_values (ops : DecimalOps) (st : State) (ft : FilledTransaction) :
    Except Error (List (OutPoint × List Rat) × Nat × Nat) := do
  let inres ← ft.spent_utxos.foldlM (input_step st) ([], 0)
  let outres ← ft.transaction.outputs.foldlM (output_step ops st) (inres.1, 0)
  .ok (outres.1, inres.2, outres.2)

/-- One entry of get_cost: load the state vector and the b of the market
(read from the utxos table; a non-Market content there is
unreachable!), and add the LMSR cost difference. -/
def cost_step (ops : DecimalOps) (st : State) (total : Rat)
    (entry : OutPoint × List Rat) : Except Error Rat :=
  match st.vectors entry.1 with
  | none => .error (.noUtxo entry.1)
  | some state =>
    match st.utxos entry.1 with
    | none => .error (.noUtxo entry.1)
    | some out =>
      match out.content with
      | .market b _ =>
          if state.length = entry.2.length then
            .ok (total + (lmsr_cost ops (b : Rat) (List.zipWith (fun a c => a + c) state entry.2)
                  - lmsr_cost ops (b : Rat) state))
          else .error .panicked
      | _ => .error .panicked

/-- get_cost: the signed sum of per-market LMSR cost differences. -/
def get_cost (ops : DecimalOps) (st : State) (mtd : List (OutPoint × List Rat)) :
    Except Error Rat :=
  mtd.foldlM (cost_step ops st) 0

/-- The inner loop of the Market arm of the decision-lifecycle scan: each
decision referenced by a spent Market must still be below its resolvable
height. -/
def check_market_decisions (st : State) (height : Nat) : List OutPoint → Except Error Unit
  | [] => .ok ()
  | d :: rest =>
    match st.utxos d with
    | none => .error (.noUtxo d)
    | some out =>
      match out.content with
      | .decision _ _ rh =>
        if height > rh then .error .marketUsingResolvableDecision
        else check_market_decisions st height rest
      | _ => .error .panicked

/-- One step of the decision-lifecycle scan of validate_transaction over
(input outpoint, spent utxo) pairs.  The accumulator is the pair
(resolved_decisions, spent_decisions). -/
def lifecycle_step (st : State) (height : Nat)
    (acc : List OutPoint × List OutPoint) (p : OutPoint × Output) :
    Except Error (List OutPoint × List OutPoint) :=
  match p.2.content with
  | .decision _ _ rh =>
      if rh < height then .error .decisionSpentEarly
      else .ok (acc.1, acc.2 ++ [p.1])
  | .resolution decision _ => .ok (decision :: acc.1, acc.2)
  | .market _ decisions => do
      check_market_decisions st height decisions
      .ok acc
  | _ => .ok acc

/-- The final loop of the lifecycle scan: every spent decision must be in
resolved_decisions. -/
def check_spent_resolved (resolved : List OutPoint) : List OutPoint → Except Error Unit
  | [] => .ok ()
  | d :: rest =>
    if d ∈ resolved then check_spent_resolved resolved rest
    else .error .decisionSpentWithoutResolution

/-- The decision-lifecycle part of validate_transaction (the two loops
before get_deltas_and_values). -/
def lifecycle_checks (st : State) (height : Nat) (ft : FilledTransaction) :
    Except Error Unit := do
  let rs ← (ft.transaction.inputs.zip ft.spent_utxos).foldlM (lifecycle_step st height) ([], [])
  check_spent_resolved rs.1 rs.2

/-- validate_transaction (state/src/lib.rs): lifecycle checks, deltas and
sums, LMSR cost, value conservation, fee. -/
def validate_transaction (ops : DecimalOps) (st : State) (ft : FilledTransaction)
    (height : Nat) : Except Error Nat := do
  lifecycle_checks st height ft
  let dv ← get_deltas_and_values ops st ft
  let cost ← get_cost ops st dv.1
  if (dv.2.1 : Rat) < cost + (dv.2.2 : Rat) then .error .notEnoughValueIn
  else
    match to_u64 cost with
    | none => .error (.u64Overflow cost)
    | some c => .ok (dv.2.1 - c + dv.2.2)

/-- The body of the inner loop of validate_body, one input at a time:
double-spend check against the block-wide spent set, then fill and
validate the whole transaction at height 0 and add its fee. -/
def process_input (ops : DecimalOps) (st : State) (t : Transaction)
    (acc : List OutPoint × Nat) (input : OutPoint) : Except Error (List OutPoint × Nat) :=
  if input ∈ acc.1 then .error (.utxoDoubleSpent input)
  else do
    let ft ← fill_transaction st t
    let f ← validate_transaction ops st ft 0
    .ok (input :: acc.1, acc.2 + f)

/-- The per-transaction part of validate_body: the loop over the
transaction inputs. -/
def process_transaction (ops : DecimalOps) (st : State) (t : Transaction)
    (acc : List OutPoint × Nat) : Except Error (List OutPoint × Nat) :=
  t.inputs.foldlM (process_input ops st t) acc

/-- validate_body (state/src/lib.rs): accumulate fees over all
transactions, then require coinbase_value ≤ fee_value. -/
def validate_body (ops : DecimalOps) (st : State) (body : Body) : Except Error Unit := do
  let res ← body.transactions.foldlM (fun acc t => process_transaction ops st t acc) ([], 0)
  let coinbase_value := (body.coinbase.map get_value).sum
  if res.2 < coinbase_value then .error .notEnoughFeeValue else .ok ()

/-- The generalization of process_input that takes the validation height
as a parameter instead of the literal 0 hard-coded in validate_body. -/
def process_input_with_height (ops : DecimalOps) (st : State) (height : Nat)
    (t : Transaction) (acc : List OutPoint × Nat) (input : OutPoint) :
    Except Error (List OutPoint × Nat) :=
  if input ∈ acc.1 then .error (.utxoDoubleSpent input)
  else do
    let ft ← fill_transaction st t
    let f ← validate_transaction ops st ft height
    .ok (input :: acc.1, acc.2 + f)

/-- The generalization of process_transaction over the height. -/
def process_transaction_with_height (ops : DecimalOps) (st : State) (height : Nat)
    (t : Transaction) (acc : List OutPoint × Nat) : Except Error (List OutPoint × Nat) :=
  t.inputs.foldlM (process_input_with_height ops st height t) acc

/-- What validate_body would be if it passed the enclosing block height
to validate_transaction; stated from the words of the spec for
comparison with the source definition. -/
def validate_body_with_height (ops : DecimalOps) (st : State) (height : Nat)
    (body : Body) : Except Error Unit := do
  let res ← body.transactions.foldlM
    (fun acc t => process_transaction_with_height ops st height t acc) ([], 0)
  let coinbase_value := (body.coinbase.map get_value).sum
  if res.2 < coinbase_value then .error .notEnoughFeeValue else .ok ()


/-- The input loop of connect_body: each input is deleted from utxos and
then the unconditional panic! fires.  A panic aborts the heed write
transaction, so the observable result of a non-empty input list is the
panic with no state change. -/
def connect_inputs (st : State) : List OutPoint → Except Error State
  | [] => .ok st
  | _ :: _ => .error .panicked

/-- The shape-collection loop of the Market arm of the connect_body
output loop: each referenced decision is looked up in utxos (after the
new output has been inserted) and must be a Decision; its size becomes
the next shape entry. -/
def collect_shape (st : State) : List OutPoint → Except Error (List Nat)
  | [] => .ok []
  | d :: rest =>
    match st.utxos d with
    | none => .error (.noUtxo d)
    | some out =>
      match out.content with
      | .decision _ size _ => do
          let restShape ← collect_shape st rest
          .ok (size :: restShape)
      | _ => .error .panicked

/-- The output loop body of connect_body: insert the output into utxos,
then append Position outpoints to market_to_positions, record Resolution
outputs in the block-local decision_to_outcome map, and persist a Market
record for Market outputs. -/
def process_output (st : State) (d2o : OutPoint → Option Nat)
    (outpoint : OutPoint) (output : Output) :
    Except Error (State × (OutPoint → Option Nat)) :=
  let st := { st with utxos := fput st.utxos outpoint output }
  match output.content with
  | .position market _ _ =>
      match st.market_to_positions market with
      | none => .error (.noUtxo market)
      | some positions =>
          .ok ({ st with market_to_positions := fput st.market_to_positions market (positions ++ [outpoint]) }, d2o)
  | .resolution decision outcome => .ok (st, fput d2o decision outcome)
  | .market b decisions => do
      let shape ← collect_shape st decisions
      .ok ({ st with markets := alPut st.markets outpoint ⟨b, shape, decisions, List.replicate shape.length none⟩ }, d2o)
  | _ => .ok (st, d2o)

/-- Folding the per-transaction deltas into body_market_to_delta:
entry.or_insert(zeros) followed by the nalgebra vector addition, which
panics on a length mismatch. -/
def merge_deltas (bodyMtd mtd : List (OutPoint × List Rat)) :
    Except Error (List (OutPoint × List Rat)) :=
  mtd.foldlM
    (fun acc e =>
      let cur := (alGet acc e.1).getD (List.replicate e.2.length 0)
      if cur.length = e.2.length then
        .ok (alPut acc e.1 (List.zipWith (fun a c => a + c) cur e.2))
      else .error .panicked)
    bodyMtd

/-- The per-transaction part of connect_body: delete inputs (which
panics on the first one), insert outputs, re-fill the transaction and
accumulate its deltas. -/
def connect_tx (ops : DecimalOps) (tid : Transaction → Nat)
    (acc : State × (OutPoint → Option Nat) × List (OutPoint × List Rat))
    (t : Transaction) :
    Except Error (State × (OutPoint → Option Nat) × List (OutPoint × List Rat)) := do
  let st ← connect_inputs acc.1 t.inputs
  let txid := tid t
  let outres ← t.outputs.enum.foldlM
    (fun sd e => process_output sd.1 sd.2 (OutPoint.regular txid e.1) e.2)
    (st, acc.2.1)
  let ft ← fill_transaction outres.1 t
  let dv ← get_deltas_and_values ops outres.1 ft
  let bodyMtd ← merge_deltas acc.2.2 dv.1
  .ok (outres.1, outres.2, bodyMtd)

/-- The second phase of connect_body: add the accumulated block deltas to
the persisted market vectors. -/
def apply_deltas (st : State) (bodyMtd : List (OutPoint × List Rat)) :
    Except Error State :=
  bodyMtd.foldlM
    (fun st e =>
      match st.vectors e.1 with
      | none => .error (.noUtxo e.1)
      | some state =>
          if state.length = e.2.length then
            .ok { st with vectors := fput st.vectors e.1 (List.zipWith (fun a c => a + c) state e.2) }
          else .error .panicked)
    st

/-- The market scan of connect_body phase 3: for every market record,
recompute outcomes from the block-local decision_to_outcome map; a
market whose recomputed outcomes are all Some is resolved. -/
def compute_updates (d2o : OutPoint → Option Nat)
    (markets : List (OutPoint × Market)) :
    List (OutPoint × Market) × List (OutPoint × List Nat) :=
  markets.foldl
    (fun acc e =>
      let outcomes := e.2.decisions.map d2o
      let resolved :=
        if outcomes.all Option.isSome then acc.2 ++ [(e.1, outcomes.filterMap id)]
        else acc.2
      (acc.1 ++ [(e.1, { e.2 with outcomes := outcomes })], resolved))
    ([], [])

/-- Reconciling one position of a resolved market: a Position whose share
equals the finalized outcome tuple is rewritten in place to a Value
output with the same address; any other Position is deleted.  A missing
utxo reports NoUtxo with the market outpoint (as the source does); a
non-Position content is unreachable!. -/
def resolve_position (mo : OutPoint) (outcomes : List Nat)
    (utxos : OutPoint → Option Output) (p : OutPoint) :
    Except Error (OutPoint → Option Output) :=
  match utxos p with
  | none => .error (.noUtxo mo)
  | some pos =>
      match pos.content with
      | .position _ share value =>
          if share = outcomes then .ok (fput utxos p { pos with content := .value value })
          else .ok (fdel utxos p)
      | _ => .error .panicked

/-- Reconciling every position listed in market_to_positions of a
resolved market. -/
def resolve_market_positions (mo : OutPoint) (outcomes : List Nat)
    (positions : List OutPoint) (utxos : OutPoint → Option Output) :
    Except Error (OutPoint → Option Output) :=
  positions.foldlM (resolve_position mo outcomes) utxos

/-- The resolved-markets loop of connect_body: enumerate the positions of
each resolved market and reconcile them. -/
def resolve_markets (st : State) (resolved : List (OutPoint × List Nat)) :
    Except Error State :=
  resolved.foldlM
    (fun st e =>
      match st.market_to_positions e.1 with
      | none => .error (.noUtxo e.1)
      | some positions => do
          let utxos ← resolve_market_positions e.1 e.2 positions st.utxos
          .ok { st with utxos := utxos })
    st

/-- The final loop of connect_body: write back the updated market
records. -/
def put_updated_markets (st : State) (updated : List (OutPoint × Market)) : State :=
  updated.foldl (fun st e => { st with markets := alPut st.markets e.1 e.2 }) st

/-- connect_body (state/src/lib.rs): apply every transaction, apply the
accumulated market deltas, then resolve markets whose decisions are all
resolved by this block.  tid is the transaction hash. -/
def connect_body (ops : DecimalOps) (tid : Transaction → Nat) (st : State)
    (body : Body) : Except Error State := do
  let acc ← body.transactions.foldlM (connect_tx ops tid) (st, (fun _ => none), [])
  let st ← apply_deltas acc.1 acc.2.2
  let ur := compute_updates acc.2.1 st.markets
  let st ← resolve_markets st ur.2
  .ok (put_updated_markets st ur.1)

/-- A share tuple is valid for a shape when the lengths agree and every
coordinate is below the corresponding dimension. -/
def valid_share : List Nat → List Nat → Prop
  | [], [] => True
  | s :: share, d :: shape => s < d ∧ valid_share share shape
  | _ :: _, [] => False
  | [], _ :: _ => False

/-- valid_share is decidable (needed to evaluate witnesses). -/
def valid_share.dec : (share shape : List Nat) → Decidable (valid_share share shape)
  | [], [] => .isTrue trivial
  | _ :: _, [] => .isFalse (fun h => h)
  | [], _ :: _ => .isFalse (fun h => h)
  | s :: share, d :: shape =>
      match Nat.decLt s d, valid_share.dec share shape with
      | .isTrue h1, .isTrue h2 => .isTrue ⟨h1, h2⟩
      | .isFalse h1, _ => .isFalse (fun h => h1 h.1)
      | _, .isFalse h2 => .isFalse (fun h => h2 h.2)

instance (share shape : List Nat) : Decidable (valid_share share shape) :=
  valid_share.dec share shape

/-- A filled transaction spending a Decision with resolvable height 5
(input 0) together with a Resolution naming that decision (input 1). -/
def c2ft : FilledTransaction :=
  ⟨[⟨1, .decision 0 2 5⟩, ⟨2, .resolution (.regular 1 0) 0⟩],
   ⟨[.regular 1 0, .regular 1 1], []⟩⟩

/-- A filled transaction spending a Decision with resolvable height 5 and
emitting (as an output) a Resolution naming that decision. -/
def c7ft : FilledTransaction :=
  ⟨[⟨1, .decision 0 2 5⟩],
   ⟨[.regular 1 0], [⟨3, .resolution (.regular 1 0) 0⟩]⟩⟩

/-- A block whose single transaction has one input. -/
def c3body : Body := ⟨[], [⟨[.regular 0 0], []⟩]⟩

/-- A state holding one Decision utxo of size 2. -/
def c4st : State :=
  { emptyState with
    utxos := fun o => if o = .regular 1 0 then some ⟨0, .decision 0 2 100⟩ else none }

/-- A block whose single (inputless) transaction creates a Market over
that decision. -/
def c4body : Body := ⟨[], [⟨[], [⟨5, .market 3 [.regular 1 0]⟩]⟩]⟩

/-- A state holding one market record over two decisions, both still
unresolved. -/
def c5st : State :=
  { emptyState with
    markets := [(.regular 100 0, ⟨1, [2, 2], [.regular 1 0, .regular 2 0], [none, none]⟩)] }

/-- A block resolving the first decision of the c5st market. -/
def c5block1 : Body := ⟨[], [⟨[], [⟨9, .resolution (.regular 1 0) 0⟩]⟩]⟩

/-- A block resolving the second decision of the c5st market. -/
def c5block2 : Body := ⟨[], [⟨[], [⟨9, .resolution (.regular 2 0) 1⟩]⟩]⟩

/-- C2.  The claim says validate_transaction fails with DecisionSpentEarly
exactly when a Decision input is spent at a height below its resolvable
height.  The source compares in the opposite direction
(resolvable_height < height), contradicting its own error message, so on
c2ft (a Decision with resolvable height 5 plus its matching Resolution
input) spending at height 10 is rejected as DecisionSpentEarly while
spending at height 3 succeeds with fee 0. -/
theorem c2_inverted_height_check :
    validate_transaction trivOps emptyState c2ft 10 = .error .decisionSpentEarly ∧
    validate_transaction trivOps emptyState c2ft 3 = .ok 0 := by
  exact ⟨by decide, by decide⟩

/-- C7.  The claim says a spent Decision must be matched by a Resolution
OUTPUT emitted by the same transaction.  The source scans the spent
utxos (inputs) for Resolutions instead, contradicting its own error
message: c7ft spends a Decision at exactly its resolvable height 5 and
emits a matching Resolution output, yet validation fails with
DecisionSpentWithoutResolution. -/
theorem c7_resolution_scanned_on_inputs :
    validate_transaction trivOps emptyState c7ft 5 = .error .decisionSpentWithoutResolution := by
  decide

/-- C3.  The claim says the input-processing step of connect_body
completes normally for blocks whose transactions have inputs.  The
source body of the input loop is an unconditional panic!, so connecting
c3body (one transaction with one input) panics instead of returning. -/
theorem c3_input_loop_panics :
    (connect_body trivOps (fun _ => 7) emptyState c3body).map (fun _ => ()) =
      .error .panicked := by
  decide

/-- C5.  The claim says persisted market outcomes grow monotonically
across connect_body calls, so decisions resolved in different blocks
accumulate.  The source recomputes outcomes from only the current block
Resolutions: after c5block1 the c5st market has outcomes
[some 0, none], but connecting c5block2 erases the first entry and
yields [none, some 1], so the market never resolves. -/
theorem c5_outcomes_not_monotonic :
    (connect_body trivOps (fun _ => 7) c5st c5block1).bind (fun s1 =>
      (connect_body trivOps (fun _ => 7) s1 c5block2).map (fun s2 =>
        ((alGet s1.markets (.regular 100 0)).map Market.outcomes,
         (alGet s2.markets (.regular 100 0)).map Market.outcomes)))
    = .ok (some [some 0, none], some [none, some 1]) := by
  decide

/-- collect_shape returns one size per referenced decision. -/
theorem collect_shape_length (st : State) :
    ∀ (ds : List OutPoint) (shape : List Nat),
      collect_shape st ds = .ok shape → shape.length = ds.length := by
  intro ds
  induction ds with
  | nil =>
      intro shape h
      cases h
      rfl
  | cons d rest ih =>
      intro shape h
      simp only [collect_shape] at h
      cases hu : st.utxos d with
      | none => rw [hu] at h; simp only [] at h; cases h
      | some out =>
          rw [hu] at h
          simp only [] at h
          cases hc : out.content with
          | decision q sz rh =>
              rw [hc] at h
              simp only [] at h
              cases hr : collect_shape st rest with
              | error e => rw [hr] at h; cases h
              | ok restShape =>
                  rw [hr] at h
                  cases h
                  simp [ih restShape hr]
          | value v => rw [hc] at h; simp only [] at h; cases h
          | resolution o1 o2 => rw [hc] at h; simp only [] at h; cases h
          | market o1 o2 => rw [hc] at h; simp only [] at h; cases h
          | position o1 o2 o3 => rw [hc] at h; simp only [] at h; cases h

/-- Each collected shape entry is the size of the corresponding decision
utxo. -/
theorem collect_shape_sizes (st : State) :
    ∀ (ds : List OutPoint) (shape : List Nat),
      collect_shape st ds = .ok shape →
      ∀ i (hi : i < ds.length) (hs : i < shape.length), ∃ a2 q rh,
        st.utxos (ds.get ⟨i, hi⟩) = some ⟨a2, .decision q (shape.get ⟨i, hs⟩) rh⟩ := by
  intro ds
  induction ds with
  | nil =>
      intro shape _ i hi
      cases hi
  | cons d rest ih =>
      intro shape h i hi hs
      simp only [collect_shape] at h
      cases hu : st.utxos d with
      | none => rw [hu] at h; simp only [] at h; cases h
      | some out =>
          rw [hu] at h
          simp only [] at h
          cases hc : out.content with
          | decision q sz rh =>
              rw [hc] at h
              simp only [] at h
              cases hr : collect_shape st rest with
              | error e => rw [hr] at h; cases h
              | ok restShape =>
                  rw [hr] at h
                  cases h
                  cases i with
                  | zero =>
                      refine ⟨out.address, q, rh, ?_⟩
                      simp only [List.get]
                      rw [← hc]
                      exact hu
                  | succ j =>
                      exact ih restShape hr j (Nat.lt_of_succ_lt_succ hi) (Nat.lt_of_succ_lt_succ hs)
          | value v => rw [hc] at h; simp only [] at h; cases h
          | resolution o1 o2 => rw [hc] at h; simp only [] at h; cases h
          | market o1 o2 => rw [hc] at h; simp only [] at h; cases h
          | position o1 o2 o3 => rw [hc] at h; simp only [] at h; cases h

/-- C4 counterexample.  Connecting c4body (a transaction creating a
Market of shape [2] at outpoint (regular 7 0)) persists the market
record, but contrary to the claim neither vectors nor
market_to_positions acquires an entry for the new market: both lookups
return none instead of the claimed zero vector and empty list. -/
theorem c4_vectors_and_positions_not_initialized :
    (connect_body trivOps (fun _ => 7) c4st c4body).map
      (fun s => ((alGet s.markets (.regular 7 0)).map Market.shape,
                 s.vectors (.regular 7 0), s.market_to_positions (.regular 7 0)))
    = .ok (some [2], none, none) := by
  decide

/-- C4 as amended.  Processing a Market output in the connect_body
output loop stores the new utxo and persists
markets[outpoint] = {b, shape, decisions, outcomes = replicate |shape| none}
with shape collected from the referenced Decisions (one entry per
decision, each the size of that decision), and leaves every other table
(in particular vectors and market_to_positions) unchanged. -/
theorem c4_market_creation_initializes_only_markets (st : State)
    (d2o : OutPoint → Option Nat) (outpoint : OutPoint) (a b : Nat)
    (decisions : List OutPoint) (shape : List Nat)
    (h : collect_shape { st with utxos := fput st.utxos outpoint ⟨a, .market b decisions⟩ }
           decisions = .ok shape) :
    process_output st d2o outpoint ⟨a, .market b decisions⟩ =
      .ok ({ st with
              utxos := fput st.utxos outpoint ⟨a, .market b decisions⟩,
              markets := alPut st.markets outpoint
                ⟨b, shape, decisions, List.replicate shape.length none⟩ }, d2o) ∧
    shape.length = decisions.length ∧
    (∀ i (hi : i < decisions.length) (hs : i < shape.length), ∃ a2 q rh,
      fput st.utxos outpoint ⟨a, .market b decisions⟩ (decisions.get ⟨i, hi⟩) =
        some ⟨a2, .decision q (shape.get ⟨i, hs⟩) rh⟩) := by
  refine ⟨?_, collect_shape_length _ _ _ h, collect_shape_sizes _ _ _ h⟩
  simp only [process_output]
  rw [h]
  rfl

/-- Witness for the amended C4 theorem at a concrete market creation. -/
theorem c4_market_creation_initializes_only_markets_witness :
    process_output c4st (fun _ => none) (.regular 7 0) ⟨5, .market 3 [.regular 1 0]⟩ =
      .ok ({ c4st with
              utxos := fput c4st.utxos (.regular 7 0) ⟨5, .market 3 [.regular 1 0]⟩,
              markets := alPut c4st.markets (.regular 7 0)
                ⟨3, [2], [.regular 1 0], List.replicate ([2] : List Nat).length none⟩ },
            (fun _ => none)) ∧
    ([2] : List Nat).length = [OutPoint.regular 1 0].length ∧
    (∀ i (hi : i < [OutPoint.regular 1 0].length) (hs : i < ([2] : List Nat).length), ∃ a2 q rh,
      fput c4st.utxos (.regular 7 0) ⟨5, .market 3 [.regular 1 0]⟩
          ([OutPoint.regular 1 0].get ⟨i, hi⟩) =
        some ⟨a2, .decision q (([2] : List Nat).get ⟨i, hs⟩) rh⟩) := by
  exact c4_market_creation_initializes_only_markets c4st (fun _ => none) (.regular 7 0)
    5 3 [.regular 1 0] [2] (by decide)

/-- The only share valid for the empty shape is the empty share. -/
theorem valid_share_nil_shape : ∀ share, valid_share share [] → share = [] := by
  intro share h
  cases share with
  | nil => rfl
  | cons s sh => exact absurd h (fun hh => hh)

/-- Unfolding flat_index one dimension at a time: with a positive leading
dimension the division step /= dim is exact. -/
theorem flat_index_cons (d : Nat) (shape : List Nat) (s : Nat) (share : List Nat)
    (hd : 0 < d) :
    flat_index (d :: shape) (s :: share) = s * shape.prod + flat_index shape share := by
  simp only [flat_index, flat_index_core, List.prod_cons]
  rw [Nat.mul_div_cancel_left _ hd]

/-- flat_index maps valid shares into [0, prod shape). -/
theorem flat_index_lt : ∀ (shape share : List Nat), (∀ x ∈ shape, 0 < x) →
    valid_share share shape → flat_index shape share < shape.prod := by
  intro shape
  induction shape with
  | nil =>
      intro share _ hv
      rw [valid_share_nil_shape share hv]
      simp [flat_index, flat_index_core]
  | cons d shape ih =>
      intro share hpos hv
      cases share with
      | nil => exact absurd hv (fun hh => hh)
      | cons s sh =>
          obtain ⟨hs, hv2⟩ := hv
          have hd : 0 < d := hpos d (by simp)
          rw [flat_index_cons d shape s sh hd, List.prod_cons]
          have h1 : flat_index shape sh < shape.prod :=
            ih sh (fun x hx => hpos x (by simp [hx])) hv2
          calc s * shape.prod + flat_index shape sh
              < s * shape.prod + shape.prod := by omega
            _ = (s + 1) * shape.prod := by ring
            _ ≤ d * shape.prod := Nat.mul_le_mul_right _ hs

/-- flat_index is injective on valid shares. -/
theorem flat_index_inj : ∀ (shape s1 s2 : List Nat), (∀ x ∈ shape, 0 < x) →
    valid_share s1 shape → valid_share s2 shape →
    flat_index shape s1 = flat_index shape s2 → s1 = s2 := by
  intro shape
  induction shape with
  | nil =>
      intro s1 s2 _ hv1 hv2 _
      rw [valid_share_nil_shape s1 hv1, valid_share_nil_shape s2 hv2]
  | cons d shape ih =>
      intro s1 s2 hpos hv1 hv2 heq
      cases s1 with
      | nil => exact absurd hv1 (fun hh => hh)
      | cons a t1 =>
          cases s2 with
          | nil => exact absurd hv2 (fun hh => hh)
          | cons b t2 =>
              obtain ⟨ha, hv1t⟩ := hv1
              obtain ⟨hb, hv2t⟩ := hv2
              have hd : 0 < d := hpos d (by simp)
              have hposT : ∀ x ∈ shape, 0 < x := fun x hx => hpos x (by simp [hx])
              rw [flat_index_cons d shape a t1 hd, flat_index_cons d shape b t2 hd] at heq
              have h1 : flat_index shape t1 < shape.prod := flat_index_lt shape t1 hposT hv1t
              have h2 : flat_index shape t2 < shape.prod := flat_index_lt shape t2 hposT hv2t
              have hab : a = b := by
                rcases Nat.lt_trichotomy a b with hlt | he | hgt
                · exfalso
                  have step : (a + 1) * shape.prod ≤ b * shape.prod :=
                    Nat.mul_le_mul_right _ (by omega)
                  have : a * shape.prod + flat_index shape t1 < b * shape.prod + flat_index shape t2 := by
                    calc a * shape.prod + flat_index shape t1
                        < a * shape.prod + shape.prod := by omega
                      _ = (a + 1) * shape.prod := by ring
                      _ ≤ b * shape.prod := step
                      _ ≤ b * shape.prod + flat_index shape t2 := by omega
                  omega
                · exact he
                · exfalso
                  have step : (b + 1) * shape.prod ≤ a * shape.prod :=
                    Nat.mul_le_mul_right _ (by omega)
                  have : b * shape.prod + flat_index shape t2 < a * shape.prod + flat_index shape t1 := by
                    calc b * shape.prod + flat_index shape t2
                        < b * shape.prod + shape.prod := by omega
                      _ = (b + 1) * shape.prod := by ring
                      _ ≤ a * shape.prod := step
                      _ ≤ a * shape.prod + flat_index shape t1 := by omega
                  omega
              subst hab
              have ht : flat_index shape t1 = flat_index shape t2 := Nat.add_left_cancel heq
              rw [ih t1 t2 hposT hv1t hv2t ht]

/-- flat_index is surjective onto [0, prod shape). -/
theorem flat_index_surj : ∀ (shape : List Nat), (∀ x ∈ shape, 0 < x) →
    ∀ n, n < shape.prod → ∃ share, valid_share share shape ∧ flat_index shape share = n := by
  intro shape
  induction shape with
  | nil =>
      intro _ n hn
      simp only [List.prod_nil] at hn
      refine ⟨[], trivial, ?_⟩
      simp [flat_index, flat_index_core]
      omega
  | cons d shape ih =>
      intro hpos n hn
      have hd : 0 < d := hpos d (by simp)
      have hposT : ∀ x ∈ shape, 0 < x := fun x hx => hpos x (by simp [hx])
      have hP : 0 < shape.prod := List.prod_pos hposT
      obtain ⟨sh, hvsh, hfsh⟩ := ih hposT (n % shape.prod) (Nat.mod_lt n hP)
      refine ⟨n / shape.prod :: sh, ⟨?_, hvsh⟩, ?_⟩
      · rw [List.prod_cons] at hn
        exact (Nat.div_lt_iff_lt_mul hP).mpr hn
      · rw [flat_index_cons d shape _ sh hd, hfsh, Nat.mul_comm]
        exact Nat.div_add_mod n shape.prod

/-- C8.  For every shape with all dimensions at least 1 whose product
fits in u32, the mixed-radix row-major flat index computed by
share_to_flat_index (embedded as flat_index: step starts at the product
of the shape, then step /= dim and idx += s * step per coordinate) is a
bijection from valid shares (same length as the shape, each coordinate
below its dimension) onto [0, prod shape): it lands in range, is
injective, and every index below the product is attained. -/
theorem c8_flat_index_bijection (shape : List Nat)
    (hpos : ∀ x ∈ shape, 0 < x) (hfit : shape.prod < 2 ^ 32) :
    (∀ share, valid_share share shape → flat_index shape share < shape.prod) ∧
    (∀ s1 s2, valid_share s1 shape → valid_share s2 shape →
       flat_index shape s1 = flat_index shape s2 → s1 = s2) ∧
    (∀ n, n < shape.prod → ∃ share, valid_share share shape ∧ flat_index shape share = n) := by
  refine ⟨fun share hv => flat_index_lt shape share hpos hv,
          fun s1 s2 hv1 hv2 heq => flat_index_inj shape s1 s2 hpos hv1 hv2 heq,
          fun n hn => flat_index_surj shape hpos n hn⟩

/-- Witness for C8 at the concrete shape [2, 3]. -/
theorem c8_flat_index_bijection_witness :
    (∀ share, valid_share share [2, 3] → flat_index [2, 3] share < ([2, 3] : List Nat).prod) ∧
    (∀ s1 s2, valid_share s1 [2, 3] → valid_share s2 [2, 3] →
       flat_index [2, 3] s1 = flat_index [2, 3] s2 → s1 = s2) ∧
    (∀ n, n < ([2, 3] : List Nat).prod →
       ∃ share, valid_share share [2, 3] ∧ flat_index [2, 3] share = n) := by
  exact c8_flat_index_bijection [2, 3] (by decide) (by decide)

/-- Bind on an ok Except value reduces to the continuation. -/
theorem ebind_ok {e a b : Type} (x : a) (f : a → Except e b) :
    (Except.ok x : Except e a) >>= f = f x := rfl

/-- Bind on an error Except value keeps the error. -/
theorem ebind_error {e a b : Type} (er : e) (f : a → Except e b) :
    (Except.error er : Except e a) >>= f = .error er := rfl

/-- The effect of reconciling a single Position utxo. -/
theorem resolve_position_spec (mo : OutPoint) (outcomes : List Nat)
    (utxos : OutPoint → Option Output) (p : OutPoint) (a : Nat) (m : OutPoint)
    (sh : List Nat) (v : Nat)
    (hq : utxos p = some ⟨a, .position m sh v⟩) :
    ∃ u1, resolve_position mo outcomes utxos p = .ok u1 ∧
      u1 p = (if sh = outcomes then some ⟨a, Content.value v⟩ else none) ∧
      ∀ q, q ≠ p → u1 q = utxos q := by
  simp only [resolve_position, hq]
  by_cases hc : sh = outcomes
  · refine ⟨_, by rw [if_pos hc], ?_, ?_⟩
    · rw [if_pos hc]
      simp [fput]
    · intro q hqp
      simp [fput, hqp]
  · refine ⟨_, by rw [if_neg hc], ?_, ?_⟩
    · rw [if_neg hc]
      simp [fdel]
    · intro q hqp
      simp [fdel, hqp]

/-- C6.  When connect_body resolves a market with finalized outcome tuple
outcomes, the position reconciliation loop (resolve_market_positions,
the loop run by resolve_markets inside connect_body) rewrites every
listed Position whose share equals outcomes into a Value output with the
same address and the position value, deletes every other listed
Position, and leaves all other utxos untouched. -/
theorem c6_resolution_reconciles_positions (mo : OutPoint) (outcomes : List Nat) :
    ∀ (positions : List OutPoint) (utxos : OutPoint → Option Output),
      positions.Nodup →
      (∀ q ∈ positions, ∃ a m sh v, utxos q = some ⟨a, .position m sh v⟩) →
      ∃ utxos2, resolve_market_positions mo outcomes positions utxos = .ok utxos2 ∧
        (∀ q ∈ positions, ∀ a m sh v, utxos q = some ⟨a, .position m sh v⟩ →
           utxos2 q = (if sh = outcomes then some ⟨a, Content.value v⟩ else none)) ∧
        (∀ q, q ∉ positions → utxos2 q = utxos q) := by
  intro positions
  induction positions with
  | nil =>
      intro utxos _ _
      exact ⟨utxos, rfl, by simp, fun q _ => rfl⟩
  | cons p rest ih =>
      intro utxos hnd hpos
      obtain ⟨a, m, sh, v, hq⟩ := hpos p (by simp)
      obtain ⟨u1, hru, hu1p, hu1q⟩ := resolve_position_spec mo outcomes utxos p a m sh v hq
      have hndr : rest.Nodup := (List.nodup_cons.mp hnd).2
      have hpnotin : p ∉ rest := (List.nodup_cons.mp hnd).1
      have hposr : ∀ q ∈ rest, ∃ a2 m2 sh2 v2, u1 q = some ⟨a2, .position m2 sh2 v2⟩ := by
        intro q hqr
        obtain ⟨a2, m2, sh2, v2, hq2⟩ := hpos q (by simp [hqr])
        have hne : q ≠ p := fun he => hpnotin (he ▸ hqr)
        exact ⟨a2, m2, sh2, v2, by rw [hu1q q hne]; exact hq2⟩
      obtain ⟨u2, hr2, hmem, hout⟩ := ih u1 hndr hposr
      refine ⟨u2, ?_, ?_, ?_⟩
      · simp only [resolve_market_positions, List.foldlM_cons] at hr2 ⊢
        rw [hru, ebind_ok]
        exact hr2
      · intro q hqmem a2 m2 sh2 v2 hq2
        rcases (by simpa using hqmem : q = p ∨ q ∈ rest) with rfl | hqr
        · rw [hq] at hq2
          simp only [Option.some.injEq, Output.mk.injEq, Content.position.injEq] at hq2
          obtain ⟨rfl, -, rfl, rfl⟩ := hq2
          rw [hout q hpnotin, hu1p]
        · have hne : q ≠ p := fun he => hpnotin (he ▸ hqr)
          exact hmem q hqr a2 m2 sh2 v2 (by rw [hu1q q hne]; exact hq2)
      · intro q hq2
        have hqne : q ≠ p := fun he => hq2 (by simp [he])
        have hqnr : q ∉ rest := fun hr => hq2 (by simp [hr])
        rw [hout q hqnr, hu1q q hqne]

/-- Witness for C6: a market resolved with outcomes [0, 1] and two listed
positions, one matching (rewritten to Value 50) and one not (deleted). -/
theorem c6_resolution_reconciles_positions_witness :
    ∃ utxos2,
      resolve_market_positions (.regular 9 9) [0, 1] [.regular 3 0, .regular 3 1]
        (fun o => if o = .regular 3 0 then some ⟨7, .position (.regular 9 9) [0, 1] 50⟩
          else if o = .regular 3 1 then some ⟨8, .position (.regular 9 9) [1, 1] 60⟩
          else none) = .ok utxos2 ∧
      (∀ q ∈ [OutPoint.regular 3 0, OutPoint.regular 3 1], ∀ a m sh v,
         (fun o => if o = OutPoint.regular 3 0 then some (⟨7, .position (.regular 9 9) [0, 1] 50⟩ : Output)
           else if o = .regular 3 1 then some ⟨8, .position (.regular 9 9) [1, 1] 60⟩
           else none) q = some ⟨a, .position m sh v⟩ →
         utxos2 q = (if sh = [0, 1] then some ⟨a, Content.value v⟩ else none)) ∧
      (∀ q, q ∉ [OutPoint.regular 3 0, OutPoint.regular 3 1] →
         utxos2 q =
           (fun o => if o = OutPoint.regular 3 0 then some (⟨7, .position (.regular 9 9) [0, 1] 50⟩ : Output)
             else if o = .regular 3 1 then some ⟨8, .position (.regular 9 9) [1, 1] 60⟩
             else none) q) := by
  refine c6_resolution_reconciles_positions (.regular 9 9) [0, 1]
    [.regular 3 0, .regular 3 1] _ (by decide) ?_
  intro q hq
  rcases (by simpa using hq : q = OutPoint.regular 3 0 ∨ q = OutPoint.regular 3 1) with rfl | rfl
  · exact ⟨7, .regular 9 9, [0, 1], 50, by simp⟩
  · exact ⟨8, .regular 9 9, [1, 1], 60, by simp⟩

/-- A state holding two Value(5) utxos. -/
def c10st : State :=
  { emptyState with
    utxos := fun o =>
      if o = .regular 0 0 then some ⟨1, .value 5⟩
      else if o = .regular 0 1 then some ⟨1, .value 5⟩
      else none }

/-- A transaction spending both c10st utxos. -/
def c10t : Transaction := ⟨[.regular 0 0, .regular 0 1], []⟩

/-- The filled form of c10t. -/
def c10ft : FilledTransaction := ⟨[⟨1, .value 5⟩, ⟨1, .value 5⟩], c10t⟩

/-- The validate_body inner loop over a list of inputs: when the inputs
are fresh and distinct and the transaction fills and validates with fee
f, the loop validates once per input and adds f each time. -/
theorem process_inputs_loop (ops : DecimalOps) (st : State) (t : Transaction)
    (ft : FilledTransaction) (f : Nat)
    (hfill : fill_transaction st t = .ok ft)
    (hval : validate_transaction ops st ft 0 = .ok f) :
    ∀ (l : List OutPoint) (spent : List OutPoint) (fee : Nat),
      l.Nodup → (∀ i ∈ l, i ∉ spent) →
      l.foldlM (process_input ops st t) (spent, fee) =
        .ok (l.reverse ++ spent, fee + l.length * f) := by
  intro l
  induction l with
  | nil =>
      intro spent fee _ _
      simp only [List.foldlM_nil, List.reverse_nil, List.nil_append, List.length_nil,
        Nat.zero_mul, Nat.add_zero]
      rfl
  | cons i rest ih =>
      intro spent fee hnd hnotin
      rw [List.foldlM_cons]
      have hnotmem : i ∉ spent := hnotin i (by simp)
      have hstep : process_input ops st t (spent, fee) i = .ok (i :: spent, fee + f) := by
        simp only [process_input, if_neg hnotmem]
        rw [hfill, ebind_ok, hval, ebind_ok]
      rw [hstep, ebind_ok]
      have hinotin : i ∉ rest := (List.nodup_cons.mp hnd).1
      have h2 := ih (i :: spent) (fee + f) (List.nodup_cons.mp hnd).2 ?_
      · rw [h2]
        have harith : fee + f + rest.length * f = fee + (rest.length + 1) * f := by ring
        simp [List.reverse_cons, List.append_assoc, harith]
      · intro j hj
        simp only [List.mem_cons]
        push_neg
        exact ⟨fun he => hinotin (he ▸ hj), hnotin j (by simp [hj])⟩

/-- C10.  validate_body fills and validates a transaction once per input
(process_transaction is the per-transaction loop of validate_body): a
transaction with no inputs is never filled or validated and leaves the
spent set and fee total unchanged, and a transaction with fresh distinct
inputs that validates with fee f contributes f once per input to the fee
total. -/
theorem c10_fee_counted_once_per_input (ops : DecimalOps) (st : State)
    (t : Transaction) (spent : List OutPoint) (fee : Nat) :
    (t.inputs = [] → process_transaction ops st t (spent, fee) = .ok (spent, fee)) ∧
    (∀ ft f, t.inputs.Nodup → (∀ i ∈ t.inputs, i ∉ spent) →
       fill_transaction st t = .ok ft → validate_transaction ops st ft 0 = .ok f →
       process_transaction ops st t (spent, fee) =
         .ok (t.inputs.reverse ++ spent, fee + t.inputs.length * f)) := by
  constructor
  · intro h
    simp only [process_transaction, h, List.foldlM_nil]
    rfl
  · intro ft f hnd hni hfill hval
    exact process_inputs_loop ops st t ft f hfill hval t.inputs spent fee hnd hni

/-- Witness for C10: a two-input transaction whose fee is 10 contributes
20 to the block fee total. -/
theorem c10_fee_counted_once_per_input_witness :
    process_transaction trivOps c10st c10t ([], 0) =
      .ok ([OutPoint.regular 0 1, .regular 0 0], 20) := by
  have h := (c10_fee_counted_once_per_input trivOps c10st c10t [] 0).2 c10ft 10
    (by decide) (by simp) (by decide) (by decide)
  simpa using h

/-- The empty filled transaction. -/
def c1ft : FilledTransaction := ⟨[], ⟨[], []⟩⟩

/-- C1.  For every filled transaction that passes the decision-lifecycle
checks and whose deltas, sums and LMSR cost compute to
(mtd, input_value, output_value) and cost: validate_transaction fails
with NotEnoughValueIn iff cost + output_value > input_value (compared in
the Decimal domain); otherwise it fails with U64Overflow exactly when
cost is negative or its truncation exceeds u64::MAX, and else returns
fee = input_value - to_u64(cost) + output_value. -/
theorem c1_value_conservation_and_fee (ops : DecimalOps) (st : State)
    (ft : FilledTransaction) (height : Nat)
    (mtd : List (OutPoint × List Rat)) (input_value output_value : Nat) (cost : Rat)
    (h1 : lifecycle_checks st height ft = .ok ())
    (h2 : get_deltas_and_values ops st ft = .ok (mtd, input_value, output_value))
    (h3 : get_cost ops st mtd = .ok cost) :
    (validate_transaction ops st ft height = .error .notEnoughValueIn ↔
       (input_value : Rat) < cost + (output_value : Rat)) ∧
    (cost + (output_value : Rat) ≤ (input_value : Rat) →
      ((validate_transaction ops st ft height = .error (.u64Overflow cost)) ↔
         (cost < 0 ∨ (2 ^ 64 : Int) ≤ cost.floor)) ∧
      (∀ c, to_u64 cost = some c →
         validate_transaction ops st ft height = .ok (input_value - c + output_value))) := by
  have hv : validate_transaction ops st ft height =
      (if (input_value : Rat) < cost + (output_value : Rat) then .error .notEnoughValueIn
       else match to_u64 cost with
         | none => .error (.u64Overflow cost)
         | some c => .ok (input_value - c + output_value)) := by
    simp only [validate_transaction]
    rw [h1, ebind_ok, h2, ebind_ok]
    simp only []
    rw [h3, ebind_ok]
  constructor
  · constructor
    · intro he
      by_contra hlt
      rw [hv, if_neg hlt] at he
      cases hc : to_u64 cost with
      | none => rw [hc] at he; simp at he
      | some c => rw [hc] at he; simp at he
    · intro hlt
      rw [hv, if_pos hlt]
  · intro hge
    have hnlt : ¬((input_value : Rat) < cost + (output_value : Rat)) := not_lt.mpr hge
    refine ⟨⟨?_, ?_⟩, ?_⟩
    · intro he
      rw [hv, if_neg hnlt] at he
      cases hc : to_u64 cost with
      | none =>
          by_contra hcon
          simp only [to_u64, if_neg hcon] at hc
          cases hc
      | some c => rw [hc] at he; simp at he
    · intro hcond
      have hnone : to_u64 cost = none := by simp only [to_u64, if_pos hcond]
      rw [hv, if_neg hnlt, hnone]
    · intro c hc
      rw [hv, if_neg hnlt, hc]

/-- Witness for C1 at the empty filled transaction: all sums zero, cost
zero, no NotEnoughValueIn, no U64Overflow, fee 0. -/
theorem c1_value_conservation_and_fee_witness :
    (validate_transaction trivOps emptyState c1ft 0 = .error .notEnoughValueIn ↔
       ((0 : Nat) : Rat) < 0 + ((0 : Nat) : Rat)) ∧
    ((0 : Rat) + ((0 : Nat) : Rat) ≤ ((0 : Nat) : Rat) →
      ((validate_transaction trivOps emptyState c1ft 0 = .error (.u64Overflow 0)) ↔
         ((0 : Rat) < 0 ∨ (2 ^ 64 : Int) ≤ (0 : Rat).floor)) ∧
      (∀ c, to_u64 0 = some c →
         validate_transaction trivOps emptyState c1ft 0 = .ok (0 - c + 0))) := by
  exact c1_value_conservation_and_fee trivOps emptyState c1ft 0 [] 0 0 0
    (by decide) (by decide) (by decide)

/-- A result that is neither of the two height-comparison errors of the
decision lifecycle. -/
def no_height_err {α : Type} (r : Except Error α) : Prop :=
  ∀ e, r = .error e → e ≠ .decisionSpentEarly ∧ e ≠ .marketUsingResolvableDecision

theorem no_height_err_ok {α : Type} (x : α) : no_height_err (Except.ok x) := by
  intro e he
  simp at he

theorem nhe_error {er : Error} {α : Type} (h1 : er ≠ .decisionSpentEarly)
    (h2 : er ≠ .marketUsingResolvableDecision) :
    no_height_err (Except.error er : Except Error α) := by
  intro e he
  cases he
  exact ⟨h1, h2⟩

theorem no_height_err_bind {α β : Type} {x : Except Error α} {f : α → Except Error β}
    (hx : no_height_err x) (hf : ∀ a, no_height_err (f a)) : no_height_err (x >>= f) := by
  cases x with
  | ok a => rw [ebind_ok]; exact hf a
  | error e =>
      rw [ebind_error]
      intro e2 he2
      cases he2
      exact hx _ rfl

theorem no_height_err_foldlM {σ α : Type} {f : σ → α → Except Error σ}
    (hf : ∀ s a, no_height_err (f s a)) :
    ∀ (l : List α) (s : σ), no_height_err (l.foldlM f s) := by
  intro l
  induction l with
  | nil =>
      intro s
      simp only [List.foldlM_nil]
      exact no_height_err_ok s
  | cons a rest ih =>
      intro s
      rw [List.foldlM_cons]
      exact no_height_err_bind (hf s a) ih

theorem get_size_nhe (st : State) (m : OutPoint) : no_height_err (get_size st m) := by
  unfold get_size
  split
  · exact nhe_error (by simp) (by simp)
  · exact no_height_err_ok _

theorem share_to_flat_index_nhe (st : State) (m : OutPoint) (share : List Nat) :
    no_height_err (share_to_flat_index st m share) := by
  unfold share_to_flat_index
  split
  · exact nhe_error (by simp) (by simp)
  · exact no_height_err_ok _

theorem delta_update_nhe (mtd : List (OutPoint × List Rat)) (m : OutPoint)
    (size flat : Nat) (v : Rat) : no_height_err (delta_update mtd m size flat v) := by
  unfold delta_update
  simp only []
  split
  · exact no_height_err_ok _
  · exact nhe_error (by simp) (by simp)

theorem input_step_nhe (st : State) (acc : List (OutPoint × List Rat) × Nat) (u : Output) :
    no_height_err (input_step st acc u) := by
  unfold input_step
  simp only []
  split
  · exact no_height_err_bind (get_size_nhe _ _) (fun size =>
      no_height_err_bind (share_to_flat_index_nhe _ _ _) (fun flat =>
        no_height_err_bind (delta_update_nhe _ _ _ _ _) (fun mtd =>
          no_height_err_ok _)))
  · exact no_height_err_ok _

theorem get_market_funding_cost_nhe (ops : DecimalOps) (st : State) (output : Output) :
    no_height_err (get_market_funding_cost ops st output) := by
  unfold get_market_funding_cost
  split
  · refine no_height_err_bind (no_height_err_foldlM ?_ _ 1) (fun size => ?_)
    · intro acc d
      split
      · exact nhe_error (by simp) (by simp)
      · split
        · exact no_height_err_ok _
        · exact nhe_error (by simp) (by simp)
    · simp only []
      split
      · exact nhe_error (by simp) (by simp)
      · exact no_height_err_ok _
  · exact no_height_err_ok _

theorem output_step_nhe (ops : DecimalOps) (st : State)
    (acc : List (OutPoint × List Rat) × Nat) (output : Output) :
    no_height_err (output_step ops st acc output) := by
  unfold output_step
  refine no_height_err_bind (get_market_funding_cost_nhe ops st output) (fun fc => ?_)
  simp only []
  split
  · exact no_height_err_bind (get_size_nhe _ _) (fun size =>
      no_height_err_bind (share_to_flat_index_nhe _ _ _) (fun flat =>
        no_height_err_bind (delta_update_nhe _ _ _ _ _) (fun mtd =>
          no_height_err_ok _)))
  · exact no_height_err_ok _

theorem get_deltas_and_values_nhe (ops : DecimalOps) (st : State) (ft : FilledTransaction) :
    no_height_err (get_deltas_and_values ops st ft) := by
  unfold get_deltas_and_values
  refine no_height_err_bind (no_height_err_foldlM (input_step_nhe st) _ _) (fun inres => ?_)
  refine no_height_err_bind (no_height_err_foldlM (output_step_nhe ops st) _ _) (fun outres => ?_)
  exact no_height_err_ok _

theorem cost_step_nhe (ops : DecimalOps) (st : State) (total : Rat)
    (entry : OutPoint × List Rat) : no_height_err (cost_step ops st total entry) := by
  unfold cost_step
  split
  · exact nhe_error (by simp) (by simp)
  · split
    · exact nhe_error (by simp) (by simp)
    · split
      · split
        · exact no_height_err_ok _
        · exact nhe_error (by simp) (by simp)
      · exact nhe_error (by simp) (by simp)

theorem get_cost_nhe (ops : DecimalOps) (st : State) (mtd : List (OutPoint × List Rat)) :
    no_height_err (get_cost ops st mtd) :=
  no_height_err_foldlM (cost_step_nhe ops st) mtd 0

theorem check_market_decisions_zero_nhe (st : State) :
    ∀ l, no_height_err (check_market_decisions st 0 l) := by
  intro l
  induction l with
  | nil => exact no_height_err_ok ()
  | cons d rest ih =>
      unfold check_market_decisions
      split
      · exact nhe_error (by simp) (by simp)
      · split
        · split
          · exfalso
            omega
          · exact ih
        · exact nhe_error (by simp) (by simp)

theorem lifecycle_step_zero_nhe (st : State) (acc : List OutPoint × List OutPoint)
    (p : OutPoint × Output) : no_height_err (lifecycle_step st 0 acc p) := by
  unfold lifecycle_step
  split
  · split
    · exfalso
      omega
    · exact no_height_err_ok _
  · exact no_height_err_ok _
  · exact no_height_err_bind (check_market_decisions_zero_nhe st _) (fun _ =>
      no_height_err_ok _)
  · exact no_height_err_ok _

theorem check_spent_resolved_nhe (resolved : List OutPoint) :
    ∀ spent, no_height_err (check_spent_resolved resolved spent) := by
  intro spent
  induction spent with
  | nil => exact no_height_err_ok ()
  | cons d rest ih =>
      unfold check_spent_resolved
      split
      · exact ih
      · exact nhe_error (by simp) (by simp)

theorem lifecycle_checks_zero_nhe (st : State) (ft : FilledTransaction) :
    no_height_err (lifecycle_checks st 0 ft) := by
  unfold lifecycle_checks
  refine no_height_err_bind (no_height_err_foldlM (lifecycle_step_zero_nhe st) _ _)
    (fun rs => check_spent_resolved_nhe rs.1 rs.2)

theorem validate_transaction_zero_nhe (ops : DecimalOps) (st : State)
    (ft : FilledTransaction) : no_height_err (validate_transaction ops st ft 0) := by
  unfold validate_transaction
  refine no_height_err_bind (lifecycle_checks_zero_nhe st ft) (fun _ => ?_)
  refine no_height_err_bind (get_deltas_and_values_nhe ops st ft) (fun dv => ?_)
  refine no_height_err_bind (get_cost_nhe ops st dv.1) (fun cost => ?_)
  split
  · exact nhe_error (by simp) (by simp)
  · split
    · exact nhe_error (by simp) (by simp)
    · exact no_height_err_ok _

theorem fill_transaction_nhe (st : State) (t : Transaction) :
    no_height_err (fill_transaction st t) := by
  unfold fill_transaction
  refine no_height_err_bind (no_height_err_foldlM ?_ t.inputs []) (fun spent =>
    no_height_err_ok _)
  intro acc i
  split
  · exact nhe_error (by simp) (by simp)
  · exact no_height_err_ok _

theorem process_input_nhe (ops : DecimalOps) (st : State) (t : Transaction)
    (acc : List OutPoint × Nat) (input : OutPoint) :
    no_height_err (process_input ops st t acc input) := by
  unfold process_input
  split
  · exact nhe_error (by simp) (by simp)
  · exact no_height_err_bind (fill_transaction_nhe st t) (fun ft =>
      no_height_err_bind (validate_transaction_zero_nhe ops st ft) (fun f =>
        no_height_err_ok _))

/-- C9.  validate_body hard-codes height 0 in its call to
validate_transaction: it coincides with the height-generalized
validate_body_with_height applied at height 0 (so the block height never
enters block validation), and as a consequence validate_body can never
return either height-comparison error of the decision lifecycle
(DecisionSpentEarly or MarketUsingResolvableDecision), whatever the
chain height at which the block is validated. -/
theorem c9_validate_body_at_height_zero (ops : DecimalOps) (st : State) (body : Body) :
    validate_body ops st body = validate_body_with_height ops st 0 body ∧
    validate_body ops st body ≠ .error .decisionSpentEarly ∧
    validate_body ops st body ≠ .error .marketUsingResolvableDecision := by
  have h : no_height_err (validate_body ops st body) := by
    unfold validate_body
    refine no_height_err_bind
      (no_height_err_foldlM (fun acc t => ?_) body.transactions ([], 0)) (fun res => ?_)
    · unfold process_transaction
      exact no_height_err_foldlM (process_input_nhe ops st t) t.inputs acc
    · simp only []
      split
      · exact nhe_error (by simp) (by simp)
      · exact no_height_err_ok _
  refine ⟨rfl, ?_, ?_⟩
  · intro hc
    exact (h _ hc).1 rfl
  · intro hc
    exact (h _ hc).2 rfl
